import Mathlib

/-!
QuickPost post-storage layer: a shallow embedding.

This file embeds the core of the QuickPost repository — the `PostManager`
class of `lib/posts.ts` (its slug and frontmatter utilities, and the
folder-per-post store operations) and the image-upload route of
`server.ts` — as executable Lean definitions, and proves the
specification claims about them.

Modelling conventions:
- JavaScript strings are modelled as `List Char` (`Str`).  Every
  character that survives the slug pipeline is a single UTF-16 code unit,
  so `List.take` models `String.prototype.slice` faithfully there.
- The posts directory is modelled as the list of its immediate entries in
  enumeration order (`DirList`); a real directory never holds two entries
  with the same name, so removal and replacement act on every entry of a
  name.
- Timestamps are modelled as `Int` epoch milliseconds (`Date.getTime`);
  timestamps embedded in frontmatter text stay plain strings.
- `Date.now()` is passed in explicitly as a parameter wherever the source
  calls `new Date()`.

Definitions come first, then the theorems.
-/

set_option linter.unusedVariables false

set_option linter.unreachableTactic false

set_option linter.unusedTactic false

abbrev Str := List Char

/-- JavaScript's `\s` character class (the whitespace characters relevant
here; both the code's `.trim()` and its `\s` regexes use this same set). -/
def jsIsSpace (c : Char) : Bool :=
  c = ' ' || c = '\t' || c = '\n' || c = '\r' ||
  c = '\x0b' || c = '\x0c' || c = ' '

/-- JavaScript's `\w` character class: `[A-Za-z0-9_]`. -/
def jsIsWord (c : Char) : Bool :=
  ('a' ≤ c && c ≤ 'z') || ('A' ≤ c && c ≤ 'Z') || ('0' ≤ c && c ≤ '9') || c = '_'

/-- Characters kept by `replace(/[^\w\s-]/g, "")` in `generateSlug`. -/
def slugKeep (c : Char) : Bool :=
  jsIsWord c || jsIsSpace c || c = '-'

/-- `String.prototype.trim`: drop leading and trailing whitespace. -/
def jsTrim (l : Str) : Str :=
  ((l.dropWhile jsIsSpace).reverse.dropWhile jsIsSpace).reverse

/-- Run-replacement: replace every maximal run of characters satisfying `p`
by the single character `r`.  The boolean state records whether we are
inside a run whose replacement character was already emitted. -/
def replaceRuns (p : Char → Bool) (r : Char) : Bool → Str → Str
  | _, [] => []
  | inRun, c :: cs =>
    if p c then
      if inRun then replaceRuns p r true cs
      else r :: replaceRuns p r true cs
    else c :: replaceRuns p r false cs

/-- The `replace` of every maximal whitespace run by one hyphen
(the `\s+` to `"-"` step of `generateSlug`). -/
def spacesToHyphens (l : Str) : Str := replaceRuns jsIsSpace '-' false l

/-- The `replace` of every maximal hyphen run by one hyphen
(the `-+` to `"-"` step of `generateSlug`). -/
def collapseHyphens (l : Str) : Str := replaceRuns (· = '-') '-' false l

/-- The removal of leading and trailing hyphen runs
(the `^-+|-+$` to `""` step of `generateSlug`). -/
def trimHyphens (l : Str) : Str :=
  ((l.dropWhile (· = '-')).reverse.dropWhile (· = '-')).reverse

/-- `PostManager.generateSlug` (lib/posts.ts), step for step:
lower-case, trim, strip characters outside `[\w\s-]`, whitespace runs to
hyphens, collapse hyphen runs, trim hyphens, `slice(0, 60)`. -/
def generateSlug (title : Str) : Str :=
  (trimHyphens (collapseHyphens (spacesToHyphens
    ((jsTrim (title.map Char.toLower)).filter slugKeep)))).take 60

/-- The slug pipeline exactly as the specification sentence lists it:
the same steps as `generateSlug` but with no `.trim()` step. -/
def specSlugPipeline (title : Str) : Str :=
  (trimHyphens (collapseHyphens (spacesToHyphens
    ((title.map Char.toLower).filter slugKeep)))).take 60

/-- State left behind by `replaceRuns` after processing `x`, starting from
state `b`: `true` iff the last character of `x` satisfies `p` (or `x` is
empty and the starting state was `true`). -/
def runState (p : Char → Bool) : Bool → Str → Bool
  | b, [] => b
  | _, c :: cs => runState p (p c) cs

/-- The frontmatter opening `---` plus newline. -/
def fmOpen : Str := "---\n".data

/-- The frontmatter closing delimiter: newline, `---`, newline. -/
def fmDelim : Str := "\n---\n".data

/-- Split `s` at the first occurrence of the (nonempty) pattern `d`:
the part strictly before the first occurrence, and the part after it.
Models the lazy group of the frontmatter regex. -/
def splitFirst (d : Str) : Str → Option (Str × Str)
  | [] => none
  | c :: cs =>
    if d.isPrefixOf (c :: cs) then some ([], (c :: cs).drop d.length)
    else
      match splitFirst d cs with
      | some (a, b) => some (c :: a, b)
      | none => none

/-- A single or double quote, as in the regex `^["']|["']$`. -/
def isQuote (c : Char) : Bool := c = '"' || c = '\''

/-- `value.replace(/^["']|["']$/g, "")`: drop one leading and one trailing
quote character, each when present. -/
def stripQuotes (v : Str) : Str :=
  let v1 := match v with
    | c :: cs => if isQuote c then cs else v
    | [] => []
  match v1.getLast? with
  | some c => if isQuote c then v1.dropLast else v1
  | none => v1

/-- `line.indexOf(c)`: index of the first occurrence, if any. -/
def jsIndexOf (c : Char) : Str → Option Nat
  | [] => none
  | d :: ds => if d = c then some 0 else (jsIndexOf c ds).map (· + 1)

/-- One line of the frontmatter block: when the first colon sits at a
positive index, the trimmed key before it and the trimmed, quote-stripped
value after it; otherwise no field (`colonIndex > 0` fails). -/
def parseFmLine (l : Str) : Option (Str × Str) :=
  match jsIndexOf ':' l with
  | some i =>
    if 0 < i then some (jsTrim (l.take i), stripQuotes (jsTrim (l.drop (i + 1))))
    else none
  | none => none

/-- `text.split("\n")`: the (always nonempty) list of newline-separated
segments; `"".split("\n")` is `[""]`. -/
def splitLines : Str → List Str
  | [] => [[]]
  | c :: cs =>
    if c = '\n' then [] :: splitLines cs
    else
      match splitLines cs with
      | l :: ls => (c :: l) :: ls
      | [] => [[c]]

/-- Assignment into a JavaScript object: an existing key keeps its position
and receives the new value; a new key is appended. -/
def jsObjInsert (m : List (Str × Str)) (k v : Str) : List (Str × Str) :=
  if m.any (fun q => q.1 = k) then m.map (fun q => if q.1 = k then (k, v) else q)
  else m ++ [(k, v)]

/-- The `forEach` loop of `parseFrontmatter` over the inner lines. -/
def parseFmLines (inner : Str) : List (Str × Str) :=
  (splitLines inner).foldl
    (fun m l =>
      match parseFmLine l with
      | some (k, v) => jsObjInsert m k v
      | none => m)
    []

/-- `PostManager.parseFrontmatter` (lib/posts.ts): total, never raises; a
malformed or absent block yields no fields and the whole content as body. -/
def parseFrontmatter (content : Str) : List (Str × Str) × Str :=
  if fmOpen.isPrefixOf content then
    match splitFirst fmDelim (content.drop fmOpen.length) with
    | some (inner, body) => (parseFmLines inner, body)
    | none => ([], content)
  else ([], content)

/-- Lookup of a field of a parsed frontmatter object. -/
def fmLookup (fields : List (Str × Str)) (k : Str) : Option Str :=
  (fields.find? (fun q => q.1 = k)).map Prod.snd

/-- Does the ISO string end in `.` + three digits + `Z`
(the pattern `\.\d{3}Z$`)? `Date.toISOString` output always does. -/
def hasMsZSuffix (iso : Str) : Bool :=
  match iso.reverse with
  | 'Z' :: d1 :: d2 :: d3 :: '.' :: _ => d3.isDigit && d2.isDigit && d1.isDigit
  | _ => false

/-- `now.toISOString().replace(RE_MS_Z, "-07:00")`: swap the `.mmmZ` suffix
for a fixed `-07:00` offset suffix. -/
def toPublishDate (iso : Str) : Str :=
  if hasMsZSuffix iso then iso.take (iso.length - 5) ++ "-07:00".data else iso

/-- The synthesized frontmatter block: exactly the fields `title`, `slug`,
`publishDate`, `createdAt`, `updatedAt` and `draft: true`, joined by
newlines between `---` fences, with a blank line after the block. -/
def mkDefaultFrontmatter (title slug publishDate iso : Str) : Str :=
  "---\ntitle: ".data ++ title ++
  "\nslug: ".data ++ slug ++
  "\npublishDate: ".data ++ publishDate ++
  "\ncreatedAt: ".data ++ iso ++
  "\nupdatedAt: ".data ++ iso ++
  "\ndraft: true\n---\n".data

/-- `PostManager.addDefaultFrontmatter` (lib/posts.ts, flat variant): if the
content already parses to at least one frontmatter field, return it
unchanged; otherwise prepend the synthesized default block to the parsed
body.  `isoNow` stands for `new Date().toISOString()`. -/
def addDefaultFrontmatter (content title slug isoNow : Str) : Str :=
  let pr := parseFrontmatter content
  if pr.1.length > 0 then content
  else mkDefaultFrontmatter title slug (toPublishDate isoNow) isoNow ++ pr.2

/-- `meta.json` contents: `{ id, slug, title, createdAt, updatedAt }`. -/
structure Meta where
  id : Str
  slug : Str
  title : Str
  createdAt : Int
  updatedAt : Int
deriving DecidableEq, Repr

/-- One post folder: `post.md`, `meta.json`, `images/`. -/
structure PostDir where
  meta : Option Meta
  content : Str
  images : List Str
deriving DecidableEq, Repr

/-- An entry of the posts directory: a plain file or a post folder. -/
inductive Entry where
  | file
  | dir (d : PostDir)
deriving DecidableEq, Repr

/-- The posts directory: named entries in `Deno.readDir` enumeration order. -/
abbrev DirList := List (Str × Entry)

/-- Look up a directory entry by name. -/
def lookupEntry (s : DirList) (name : Str) : Option Entry :=
  (s.find? (fun q => q.1 = name)).map Prod.snd

/-- The in-memory `Post` record returned by the store. -/
structure Post where
  id : Str
  folder : Str
  title : Str
  content : Option Str
  createdAt : Int
  updatedAt : Int
deriving DecidableEq, Repr

/-- `PostManager.get` (folder variant): stat the path (must be a
directory), then read and parse `meta.json` and read `post.md`; any
failure yields `null`. -/
def PostManager.get (s : DirList) (id : Str) : Option Post :=
  match lookupEntry s id with
  | some (.dir d) =>
    match d.meta with
    | some m => some ⟨m.id, id, m.title, some d.content, m.createdAt, m.updatedAt⟩
    | none => none
  | _ => none

/-- `PostManager.slugExists` (folder variant): `Deno.stat` succeeds and
reports a directory. -/
def slugExists (s : DirList) (name : Str) : Bool :=
  match lookupEntry s name with
  | some (.dir _) => true
  | _ => false

/-- Decimal digits, with fuel for structural recursion; the fuel never
runs out when it exceeds the number (see `natStrAux_val`). -/
def natStrAux : Nat → Nat → Str
  | 0, _ => []
  | fuel + 1, n =>
    if n < 10 then [Char.ofNat (48 + n)]
    else natStrAux fuel (n / 10) ++ [Char.ofNat (48 + n % 10)]

/-- Decimal representation of a natural number, as JavaScript's template
interpolation of a counter produces it. -/
def natStr (n : Nat) : Str := natStrAux (n + 1) n

/-- The `k`-th candidate slug tried by `create`'s while loop:
the base slug itself, then `base-1`, `base-2`, …. -/
def candidate (base : Str) : Nat → Str
  | 0 => base
  | k + 1 => base ++ '-' :: natStr (k + 1)

/-- The while loop `while (await this.slugExists(uniqueSlug))`, unrolled
with explicit fuel.  `create` calls it with fuel `s.length + 1`, which the
uniqueness theorem shows is always enough, so the `fuel = 0` fallback is
never reached. -/
def findFrom (s : DirList) (base : Str) : Nat → Nat → Str
  | 0, k => candidate base k
  | fuel + 1, k =>
    if slugExists s (candidate base k) then findFrom s base fuel (k + 1)
    else candidate base k

/-- The disambiguated slug: the first candidate that is not an existing
post folder. -/
def findUniqueSlug (s : DirList) (base : Str) : Str :=
  findFrom s base (s.length + 1) 0

/-- The line `frontmatter.slug || this.generateSlug(data.title)` of
`create`: the content frontmatter's `slug` field when present and truthy
(a present-but-empty value is falsy in JavaScript), else the slug derived
from the title. -/
def createBase (title content : Str) : Str :=
  match fmLookup (parseFrontmatter content).1 "slug".data with
  | some v => if v = [] then generateSlug title else v
  | none => generateSlug title

/-- `PostManager.create` (folder variant): candidate slug from
`createBase`; disambiguate against existing folders; make the folder
(with `images/`), write `post.md` verbatim, write `meta.json`; return the
Post.  `none` models the `ensureDir` throw when a plain file already
bears the chosen name. -/
def PostManager.create (s : DirList) (title content : Str) (now : Int) :
    Option (DirList × Post) :=
  let u := findUniqueSlug s (createBase title content)
  match lookupEntry s u with
  | some .file => none
  | _ =>
    let m : Meta := ⟨u, u, title, now, now⟩
    some (s ++ [(u, .dir ⟨some m, content, []⟩)],
      ⟨u, u, title, some content, now, now⟩)

/-- `PostManager.update` (folder variant): resolve via `get`; overwrite
`post.md` when content is given; set the metadata title when given; always
set `updatedAt`; persist; return the merged Post. -/
def PostManager.update (s : DirList) (id : Str) (newTitle newContent : Option Str)
    (now : Int) : Option (DirList × Post) :=
  match lookupEntry s id with
  | some (.dir d) =>
    match d.meta with
    | some m =>
      let content := newContent.getD d.content
      let m' : Meta := { m with title := newTitle.getD m.title, updatedAt := now }
      let s' := s.map (fun q => if q.1 = id then (q.1, .dir ⟨some m', content, d.images⟩) else q)
      some (s', ⟨m.id, id, newTitle.getD m.title, some content, m.createdAt, now⟩)
    | none => none
  | _ => none

/-- `PostManager.delete` (folder variant): stat the path; when it is a
directory, remove it recursively and return `true`; otherwise return
`false` (never an exception). -/
def PostManager.delete (s : DirList) (id : Str) : Bool × DirList :=
  match lookupEntry s id with
  | some (.dir _) => (true, s.filter (fun q => !(q.1 = id)))
  | _ => (false, s)

/-- The summary record `list` builds for one folder entry (no content). -/
def summaryOf (name : Str) (d : PostDir) : Option Post :=
  match d.meta with
  | some m => some ⟨m.id, name, m.title, none, m.createdAt, m.updatedAt⟩
  | none => none

/-- The summaries collected by `list`'s loop, in enumeration order:
directories whose `meta.json` parses; files and invalid folders skipped. -/
def collectSummaries (s : DirList) : List Post :=
  s.filterMap (fun q =>
    match q.2 with
    | .dir d => summaryOf q.1 d
    | .file => none)

/-- The comparator `(a, b) => b.createdAt.getTime() - a.createdAt.getTime()`:
descending by creation time.  `Array.prototype.sort` is stable, as is
`List.insertionSort`. -/
def newerFirst (a b : Post) : Prop := b.createdAt ≤ a.createdAt

instance : DecidableRel newerFirst := fun a b => inferInstanceAs (Decidable (_ ≤ _))

/-- `PostManager.list` (folder variant) on a readable posts directory. -/
def PostManager.list (s : DirList) : List Post :=
  (collectSummaries s).insertionSort newerFirst

/-- `PostManager.list` including the catch-all: an unreadable posts root
(`none`) yields the empty list. -/
def PostManager.listFS : Option DirList → List Post
  | none => []
  | some s => PostManager.list s

/-- Reconstruction of the value of a decimal string. -/
def strVal (l : Str) : Nat := l.foldl (fun a c => 10 * a + (c.toNat - 48)) 0

/-- Names of the entries that are directories. -/
def dirNames (s : DirList) : List Str :=
  s.filterMap (fun q =>
    match q.2 with
    | .dir _ => some q.1
    | .file => none)

/-- The multipart file as the upload handler sees it: its declared content
type and its original filename. -/
structure UploadedFile where
  type : Str
  name : Str
deriving DecidableEq, Repr

/-- `const allowedTypes = [...]` of the POST upload handler in `server.ts`. -/
def allowedTypes : List Str :=
  ["image/png".data, "image/jpeg".data, "image/jpg".data,
   "image/gif".data, "image/webp".data]

/-- The four content types the specification's sentence lists as allowed. -/
def specListedTypes : List Str :=
  ["image/png".data, "image/jpeg".data, "image/gif".data, "image/webp".data]

/-- The upload handler's response: an error status with a message, or 201
with the JSON body `{path, markdown}`. -/
inductive UploadResponse where
  | err (status : Nat) (message : Str)
  | created (path : Str) (markdown : Str)
deriving DecidableEq, Repr

/-- The HTTP status of a response; `jsonResponse(..., 201)` carries 201. -/
def UploadResponse.status : UploadResponse → Nat
  | .err s _ => s
  | .created _ _ => 201

/-- The POST `/api/posts/:id/upload` handler of `server.ts`: a missing
file field is a 400; a declared content type outside `allowedTypes` is a
400 `Invalid image type`; otherwise 201 with the stored relative path and
a markdown snippet referencing it.  `storedPath` stands for the value
returned by `postManager.uploadImage`. -/
def handleUpload (file : Option UploadedFile) (storedPath : Str) : UploadResponse :=
  match file with
  | none => .err 400 "No image file provided".data
  | some f =>
    if f.type ∈ allowedTypes then
      .created storedPath ("![](/".data ++ storedPath ++ [')'])
    else .err 400 "Invalid image type".data

/-- `lines.join("\n")`. -/
def joinLines : List Str → Str
  | [] => []
  | [l] => l
  | l :: l' :: ls => l ++ '\n' :: joinLines (l' :: ls)

/-- Predicate: the first character, if any, is not a hyphen. -/
def headNotHyphen (l : Str) : Prop := ∀ c : Char, l.head? = some c → c ≠ '-'

/-- The six `key: value` lines of the synthesized frontmatter block. -/
def fmSixLines (title slug publishDate iso : Str) : List Str :=
  ["title: ".data ++ title, "slug: ".data ++ slug,
   "publishDate: ".data ++ publishDate, "createdAt: ".data ++ iso,
   "updatedAt: ".data ++ iso, "draft: true".data]

instance : IsTotal Post newerFirst := ⟨fun a b => le_total b.createdAt a.createdAt⟩

instance : IsTrans Post newerFirst := ⟨fun _ _ _ h1 h2 => le_trans h2 h1⟩

/-- The failing input of C1. -/
def c1Title : Str := "Test Post".data

/-- The failing input of C1: content with no frontmatter block. -/
def c1Content : Str := "This is a test post without frontmatter.".data

/-- The counterexample content of C2: a frontmatter `slug` field that is
present but empty. -/
def c2Content : Str := "---\nslug:\n---\nbody".data

/-- The concrete results of two consecutive creates used by the C2
witness. -/
def c2S1 : DirList :=
  [("test-post".data,
    .dir ⟨some ⟨"test-post".data, "test-post".data, c1Title, 0, 0⟩, c1Content, []⟩)]

def c2P1 : Post :=
  ⟨"test-post".data, "test-post".data, c1Title, some c1Content, 0, 0⟩

def c2S2 : DirList :=
  c2S1 ++
    [("test-post-1".data,
      .dir ⟨some ⟨"test-post-1".data, "test-post-1".data, c1Title, 1, 1⟩, c1Content, []⟩)]

def c2P2 : Post :=
  ⟨"test-post-1".data, "test-post-1".data, c1Title, some c1Content, 1, 1⟩

/-! ## Theorems -/

example : generateSlug "Test Post".data = "test-post".data := by decide

example : generateSlug "  Hello,  World!  ".data = "hello-world".data := by decide

example : generateSlug "!!!".data = [] := by decide

example : specSlugPipeline "  a .b ".data = generateSlug "  a .b ".data := by decide

theorem replaceRuns_true_append (p : Char → Bool) (r : Char) (w x : Str)
    (hw : ∀ c ∈ w, p c) :
    replaceRuns p r true (w ++ x) = replaceRuns p r true x := by
  induction w with
  | nil => rfl
  | cons c cs ih =>
    have hc : p c = true := hw c (List.mem_cons_self c cs)
    simp only [List.cons_append, replaceRuns, hc, if_pos]
    exact ih (fun d hd => hw d (List.mem_cons_of_mem c hd))

theorem replaceRuns_true_eq (p : Char → Bool) (r : Char) :
    ∀ x, replaceRuns p r true x = replaceRuns p r false (x.dropWhile p)
  | [] => rfl
  | c :: cs => by
    by_cases hc : p c = true
    · simp only [replaceRuns, hc, if_pos, List.dropWhile_cons, if_true]
      exact replaceRuns_true_eq p r cs
    · simp only [Bool.not_eq_true] at hc
      simp [replaceRuns, List.dropWhile_cons, hc]

theorem replaceRuns_run_cons (p : Char → Bool) (r : Char) (w x : Str)
    (hw : ∀ c ∈ w, p c) (hne : w ≠ []) :
    replaceRuns p r false (w ++ x) = r :: replaceRuns p r true x := by
  cases w with
  | nil => exact absurd rfl hne
  | cons c cs =>
    have hc : p c = true := hw c (List.mem_cons_self c cs)
    have h2 := replaceRuns_true_append p r cs x (fun d hd => hw d (List.mem_cons_of_mem c hd))
    simp [replaceRuns, hc, h2]

theorem replaceRuns_append_run (p : Char → Bool) (r : Char) (w : Str)
    (hw : ∀ c ∈ w, p c) (hne : w ≠ []) :
    ∀ (x : Str) (b : Bool), replaceRuns p r b (x ++ w) =
      replaceRuns p r b x ++ (if runState p b x then [] else [r])
  | [], b => by
    cases w with
    | nil => exact absurd rfl hne
    | cons c cs =>
      have hc : p c = true := hw c (List.mem_cons_self c cs)
      have hcs : ∀ d ∈ cs, p d = true := fun d hd => hw d (List.mem_cons_of_mem c hd)
      have htail : replaceRuns p r true cs = [] := by
        have := replaceRuns_true_append p r cs [] hcs
        simpa using this
      cases b with
      | true => simp [replaceRuns, hc, htail, runState]
      | false => simp [replaceRuns, hc, htail, runState]
  | c :: cs, b => by
    have ih := replaceRuns_append_run p r w hw hne cs
    by_cases hc : p c = true
    · cases b with
      | true => simp [replaceRuns, hc, runState]; exact ih true
      | false => simp [replaceRuns, hc, runState]; exact ih true
    · simp only [Bool.not_eq_true] at hc
      cases b with
      | true => simp [replaceRuns, hc, runState]; exact ih false
      | false => simp [replaceRuns, hc, runState]; exact ih false

theorem trimHyphens_cons (z : Str) : trimHyphens ('-' :: z) = trimHyphens z := by
  simp [trimHyphens, List.dropWhile_cons]

theorem trimHyphens_append_hyphen (z : Str) :
    trimHyphens (z ++ ['-']) = trimHyphens z := by
  unfold trimHyphens
  rw [List.dropWhile_append]
  by_cases h : z.dropWhile (· = '-') = []
  · simp [h, List.dropWhile]
  · simp only [h, List.isEmpty_iff, if_neg, List.reverse_append]
    simp [List.dropWhile_cons]

theorem collapseHyphens_cons (y : Str) :
    collapseHyphens ('-' :: y) = '-' :: collapseHyphens (y.dropWhile (· = '-')) := by
  simp [collapseHyphens, replaceRuns, replaceRuns_true_eq]

theorem spacesToHyphens_cons {c : Char} (h : jsIsSpace c = true) (y : Str) :
    spacesToHyphens (c :: y) = '-' :: spacesToHyphens (y.dropWhile jsIsSpace) := by
  simp [spacesToHyphens, replaceRuns, h, replaceRuns_true_eq]

/-- Dropping a leading hyphen run before collapsing does not change the
hyphen-trimmed result. -/
theorem trimH_coll_dropWhile (z : Str) :
    trimHyphens (collapseHyphens (z.dropWhile (· = '-'))) =
    trimHyphens (collapseHyphens z) := by
  rcases hw : z.takeWhile (· = '-') with _ | ⟨c, cs⟩
  · have hz : z.dropWhile (· = '-') = z := by
      conv_rhs => rw [← List.takeWhile_append_dropWhile (· = '-') z]
      rw [hw, List.nil_append]
    rw [hz]
  · have hz : (c :: cs) ++ z.dropWhile (· = '-') = z := by
      rw [← hw]; exact List.takeWhile_append_dropWhile _ z
    have hall : ∀ d ∈ (c :: cs), decide (d = '-') = true := by
      intro d hd
      rw [← hw] at hd
      have h3 := List.mem_takeWhile_imp hd
      exact h3
    have h1 : collapseHyphens z = '-' :: collapseHyphens (z.dropWhile (· = '-')) := by
      conv_lhs => rw [← hz]
      rw [show collapseHyphens ((c :: cs) ++ z.dropWhile (· = '-')) =
            replaceRuns (· = '-') '-' false ((c :: cs) ++ z.dropWhile (· = '-')) from rfl,
        replaceRuns_run_cons _ _ _ _ hall (by simp), replaceRuns_true_eq,
        List.dropWhile_idempotent]
      rfl
    rw [h1, trimHyphens_cons]

/-- Dropping a leading whitespace run does not change the
collapse-and-trim result. -/
theorem tcs_dropSpaces (x : Str) :
    trimHyphens (collapseHyphens (spacesToHyphens (x.dropWhile jsIsSpace))) =
    trimHyphens (collapseHyphens (spacesToHyphens x)) := by
  rcases hw : x.takeWhile jsIsSpace with _ | ⟨c, cs⟩
  · have hx : x.dropWhile jsIsSpace = x := by
      conv_rhs => rw [← List.takeWhile_append_dropWhile jsIsSpace x]
      rw [hw, List.nil_append]
    rw [hx]
  · have hx : (c :: cs) ++ x.dropWhile jsIsSpace = x := by
      rw [← hw]; exact List.takeWhile_append_dropWhile _ x
    have hall : ∀ d ∈ (c :: cs), jsIsSpace d = true := by
      intro d hd
      rw [← hw] at hd
      exact List.mem_takeWhile_imp hd
    have h1 : spacesToHyphens x =
        '-' :: spacesToHyphens (x.dropWhile jsIsSpace) := by
      conv_lhs => rw [← hx]
      rw [show spacesToHyphens ((c :: cs) ++ x.dropWhile jsIsSpace) =
            replaceRuns jsIsSpace '-' false ((c :: cs) ++ x.dropWhile jsIsSpace) from rfl,
        replaceRuns_run_cons _ _ _ _ hall (by simp), replaceRuns_true_eq,
        List.dropWhile_idempotent]
      rfl
    rw [h1, collapseHyphens_cons, trimHyphens_cons, trimH_coll_dropWhile]

theorem slugKeep_of_space {c : Char} (h : jsIsSpace c = true) : slugKeep c = true := by
  simp [slugKeep, h]

/-- Prepending a whitespace run does not change the collapse-and-trim
result. -/
theorem tcs_prepend_spaces (w x : Str) (hw : ∀ c ∈ w, jsIsSpace c = true) :
    trimHyphens (collapseHyphens (spacesToHyphens (w ++ x))) =
    trimHyphens (collapseHyphens (spacesToHyphens x)) := by
  cases w with
  | nil => rfl
  | cons c cs =>
    have h1 : spacesToHyphens ((c :: cs) ++ x) =
        '-' :: spacesToHyphens (x.dropWhile jsIsSpace) := by
      rw [show spacesToHyphens ((c :: cs) ++ x) =
            replaceRuns jsIsSpace '-' false ((c :: cs) ++ x) from rfl,
        replaceRuns_run_cons _ _ _ _ hw (by simp), replaceRuns_true_eq]
      rfl
    rw [h1, collapseHyphens_cons, trimHyphens_cons, trimH_coll_dropWhile,
      tcs_dropSpaces]

/-- Appending a whitespace run does not change the collapse-and-trim
result. -/
theorem tcs_append_spaces (x w : Str) (hw : ∀ c ∈ w, jsIsSpace c = true) :
    trimHyphens (collapseHyphens (spacesToHyphens (x ++ w))) =
    trimHyphens (collapseHyphens (spacesToHyphens x)) := by
  cases w with
  | nil => simp
  | cons c cs =>
    have h1 : spacesToHyphens (x ++ c :: cs) =
        spacesToHyphens x ++ (if runState jsIsSpace false x then [] else ['-']) :=
      replaceRuns_append_run jsIsSpace '-' (c :: cs) hw (by simp) x false
    rw [h1]
    by_cases hs : runState jsIsSpace false x = true
    · simp [hs]
    · simp only [Bool.not_eq_true] at hs
      simp only [hs, Bool.false_eq_true, if_neg, not_false_iff]
      have h2 : collapseHyphens (spacesToHyphens x ++ ['-']) =
          collapseHyphens (spacesToHyphens x) ++
            (if runState (· = '-') false (spacesToHyphens x) then [] else ['-']) :=
        replaceRuns_append_run _ _ ['-'] (by simp) (by simp) _ false
      rw [h2]
      by_cases h3 : runState (· = '-') false (spacesToHyphens x) = true
      · simp [h3]
      · simp only [Bool.not_eq_true] at h3
        simp [h3, trimHyphens_append_hyphen]

/-- The `.trim()` call in `generateSlug` never affects the result:
both whitespace ends are turned into leading/trailing hyphens and trimmed
off again. -/
theorem slug_trim_redundant (u : Str) :
    trimHyphens (collapseHyphens (spacesToHyphens ((jsTrim u).filter slugKeep))) =
    trimHyphens (collapseHyphens (spacesToHyphens (u.filter slugKeep))) := by
  have hsplit : u.takeWhile jsIsSpace ++ u.dropWhile jsIsSpace = u :=
    List.takeWhile_append_dropWhile _ u
  have hwlead : ∀ c ∈ u.takeWhile jsIsSpace, jsIsSpace c = true := by
    intro c hc
    have h3 := List.mem_takeWhile_imp hc
    exact h3
  have hfilter1 : u.filter slugKeep =
      u.takeWhile jsIsSpace ++ (u.dropWhile jsIsSpace).filter slugKeep := by
    conv_lhs => rw [← hsplit]
    rw [List.filter_append,
      List.filter_eq_self.mpr (fun c hc => slugKeep_of_space (hwlead c hc))]
  have h1 : trimHyphens (collapseHyphens (spacesToHyphens (u.filter slugKeep))) =
      trimHyphens (collapseHyphens (spacesToHyphens
        ((u.dropWhile jsIsSpace).filter slugKeep))) := by
    rw [hfilter1]; exact tcs_prepend_spaces _ _ hwlead
  have hms : jsTrim u ++ ((u.dropWhile jsIsSpace).reverse.takeWhile jsIsSpace).reverse =
      u.dropWhile jsIsSpace := by
    have hrev := List.takeWhile_append_dropWhile jsIsSpace (u.dropWhile jsIsSpace).reverse
    calc jsTrim u ++ ((u.dropWhile jsIsSpace).reverse.takeWhile jsIsSpace).reverse
        = ((u.dropWhile jsIsSpace).reverse.takeWhile jsIsSpace ++
            (u.dropWhile jsIsSpace).reverse.dropWhile jsIsSpace).reverse := by
          rw [List.reverse_append]; rfl
      _ = (u.dropWhile jsIsSpace).reverse.reverse := by rw [hrev]
      _ = u.dropWhile jsIsSpace := List.reverse_reverse _
  have hw2 : ∀ c ∈ ((u.dropWhile jsIsSpace).reverse.takeWhile jsIsSpace).reverse,
      jsIsSpace c = true := by
    intro c hc
    rw [List.mem_reverse] at hc
    have h3 := List.mem_takeWhile_imp hc
    exact h3
  have hfilter2 : (u.dropWhile jsIsSpace).filter slugKeep =
      (jsTrim u).filter slugKeep ++
        ((u.dropWhile jsIsSpace).reverse.takeWhile jsIsSpace).reverse := by
    conv_lhs => rw [← hms]
    rw [List.filter_append,
      List.filter_eq_self.mpr (fun c hc => slugKeep_of_space (hw2 c hc))]
  rw [h1, hfilter2]
  exact (tcs_append_spaces _ _ hw2).symm

/-- `generateSlug` computes exactly the specification's pipeline. -/
theorem generateSlug_eq_specPipeline (t : Str) :
    generateSlug t = specSlugPipeline t := by
  unfold generateSlug specSlugPipeline
  exact congrArg (List.take 60) (slug_trim_redundant (t.map Char.toLower))

example :
    parseFrontmatter "---\ntitle: Hi\ndraft: false\n---\nBody".data =
      ([("title".data, "Hi".data), ("draft".data, "false".data)], "Body".data) := by
  decide

example : parseFrontmatter "no block here".data = ([], "no block here".data) := by decide

example : parseFrontmatter "---\nabc\n---\nrest".data = ([], "rest".data) := by decide

example : parseFrontmatter "---\n---\nX".data = ([], "---\n---\nX".data) := by decide

example :
    parseFrontmatter "---\nslug: \"my-slug\"\n---\nB".data =
      ([("slug".data, "my-slug".data)], "B".data) := by decide

example :
    addDefaultFrontmatter "Hello".data "T".data "t".data
        "2021-06-08T21:47:59.123Z".data =
      ("---\ntitle: T\nslug: t\npublishDate: 2021-06-08T21:47:59-07:00\n" ++
       "createdAt: 2021-06-08T21:47:59.123Z\nupdatedAt: 2021-06-08T21:47:59.123Z\n" ++
       "draft: true\n---\nHello").data := by decide

example : natStr 1 = "1".data := by decide

example : natStr 12 = "12".data := by decide

example : candidate "test-post".data 2 = "test-post-2".data := by decide

theorem strVal_append_digit (l : Str) (c : Char) :
    strVal (l ++ [c]) = 10 * strVal l + (c.toNat - 48) := by
  simp [strVal, List.foldl_append]

theorem digit_toNat {m : Nat} (hm : m < 10) : (Char.ofNat (48 + m)).toNat = 48 + m := by
  interval_cases m <;> decide

theorem strVal_foldl_shift (l : Str) (a : Nat) :
    l.foldl (fun a c => 10 * a + (c.toNat - 48)) a =
      a * 10 ^ l.length + strVal l := by
  induction l generalizing a with
  | nil => simp [strVal]
  | cons c cs ih =>
    simp only [List.foldl_cons, strVal, List.length_cons]
    rw [ih, ih (10 * 0 + (c.toNat - 48))]
    ring

theorem natStrAux_val : ∀ fuel n, n < fuel → strVal (natStrAux fuel n) = n := by
  intro fuel
  induction fuel with
  | zero => intro n hn; omega
  | succ f ih =>
    intro n hn
    by_cases h10 : n < 10
    · simp only [natStrAux, h10, if_pos]
      simp [strVal, digit_toNat h10]
    · simp only [natStrAux, h10, if_neg, not_false_iff]
      rw [strVal_append_digit, ih (n / 10) (by omega),
        digit_toNat (Nat.mod_lt n (by omega))]
      omega

theorem natStr_val (n : Nat) : strVal (natStr n) = n :=
  natStrAux_val (n + 1) n (Nat.lt_succ_self n)

theorem natStr_inj {a b : Nat} (h : natStr a = natStr b) : a = b := by
  have := natStr_val a
  rw [h, natStr_val] at this
  omega

theorem candidate_injective (base : Str) : Function.Injective (candidate base) := by
  intro j k h
  match j, k with
  | 0, 0 => rfl
  | 0, k + 1 =>
    exfalso
    have hl := congrArg List.length h
    simp [candidate] at hl
  | j + 1, 0 =>
    exfalso
    have hl := congrArg List.length h
    simp [candidate] at hl
  | j + 1, k + 1 =>
    simp only [candidate] at h
    have h2 := List.append_cancel_left h
    have h3 : natStr (j + 1) = natStr (k + 1) := by
      injection h2
    rw [natStr_inj h3]

theorem mem_dirNames_of_slugExists {s : DirList} {name : Str}
    (h : slugExists s name = true) : name ∈ dirNames s := by
  unfold slugExists lookupEntry at h
  rcases hf : s.find? (fun q => q.1 = name) with _ | ⟨n, e⟩
  · rw [hf] at h; simp at h
  · rw [hf] at h
    have hmem := List.mem_of_find?_eq_some hf
    have hpred := List.find?_some hf
    simp only [decide_eq_true_eq] at hpred
    cases e with
    | file => simp at h
    | dir d =>
      rw [← hpred]
      unfold dirNames
      exact List.mem_filterMap.mpr ⟨(n, .dir d), hmem, rfl⟩

/-- Pigeonhole: among the first `s.length + 1` candidates, at least one
does not collide with an existing directory. -/
theorem exists_fresh_candidate (s : DirList) (base : Str) :
    ∃ k, k ≤ s.length ∧ slugExists s (candidate base k) = false := by
  by_contra hcon
  push_neg at hcon
  have hall : ∀ k ≤ s.length, slugExists s (candidate base k) = true := by
    intro k hk
    have := hcon k hk
    simpa using this
  have hsub : ((List.range (s.length + 1)).map (candidate base)) ⊆ dirNames s := by
    intro x hx
    rcases List.mem_map.mp hx with ⟨k, hk, rfl⟩
    exact mem_dirNames_of_slugExists (hall k (Nat.lt_succ_iff.mp (List.mem_range.mp hk)))
  have hnd : ((List.range (s.length + 1)).map (candidate base)).Nodup :=
    (List.nodup_range _).map (candidate_injective base)
  have hle := (List.subperm_of_subset hnd hsub).length_le
  have h1 : (dirNames s).length ≤ s.length := List.length_filterMap_le _ _
  simp only [List.length_map, List.length_range] at hle
  omega

theorem findFrom_spec (s : DirList) (base : Str) :
    ∀ (fuel k : Nat),
      (∃ j, k ≤ j ∧ j < k + fuel ∧ slugExists s (candidate base j) = false) →
      ∃ j, k ≤ j ∧ findFrom s base fuel k = candidate base j ∧
        slugExists s (candidate base j) = false ∧
        ∀ i, k ≤ i → i < j → slugExists s (candidate base i) = true := by
  intro fuel
  induction fuel with
  | zero =>
    intro k ⟨j, hkj, hj, _⟩
    omega
  | succ f ih =>
    intro k hex
    by_cases hk : slugExists s (candidate base k) = true
    · rcases hex with ⟨j, hkj, hj, hfresh⟩
      have hjk : j ≠ k := by
        intro he; rw [he] at hfresh; rw [hk] at hfresh; exact Bool.true_eq_false.mp hfresh
      have hex' : ∃ j, k + 1 ≤ j ∧ j < (k + 1) + f ∧
          slugExists s (candidate base j) = false := ⟨j, by omega, by omega, hfresh⟩
      rcases ih (k + 1) hex' with ⟨j', hkj', heq, hfresh', hall⟩
      refine ⟨j', by omega, ?_, hfresh', ?_⟩
      · simp only [findFrom, hk, if_pos]; exact heq
      · intro i hki hij
        by_cases hik : i = k
        · rw [hik]; exact hk
        · exact hall i (by omega) hij
    · refine ⟨k, le_refl k, ?_, by simpa using hk, by omega⟩
      simp only [findFrom, hk, if_neg, not_false_iff]
      simp at hk
      simp [hk]

/-- `findUniqueSlug` returns the first candidate (in the order `base`,
`base-1`, `base-2`, …) that is not an existing post folder; in particular
its result never collides. -/
theorem findUniqueSlug_spec (s : DirList) (base : Str) :
    ∃ j, findUniqueSlug s base = candidate base j ∧
      slugExists s (candidate base j) = false ∧
      ∀ i < j, slugExists s (candidate base i) = true := by
  rcases exists_fresh_candidate s base with ⟨k, hk, hfresh⟩
  rcases findFrom_spec s base (s.length + 1) 0 ⟨k, Nat.zero_le k, by omega, hfresh⟩ with
    ⟨j, _, heq, hfresh', hall⟩
  exact ⟨j, heq, hfresh', fun i hi => hall i (Nat.zero_le i) hi⟩

theorem findUniqueSlug_fresh (s : DirList) (base : Str) :
    slugExists s (findUniqueSlug s base) = false := by
  rcases findUniqueSlug_spec s base with ⟨j, heq, hfresh, _⟩
  rw [heq]; exact hfresh

theorem splitFirst_some_sound (d : Str) :
    ∀ (t a b : Str), splitFirst d t = some (a, b) → t = a ++ d ++ b := by
  intro t
  induction t with
  | nil => intro a b h; simp [splitFirst] at h
  | cons c cs ih =>
    intro a b h
    by_cases hp : d.isPrefixOf (c :: cs) = true
    · simp only [splitFirst, hp, if_pos, Option.some.injEq, Prod.mk.injEq] at h
      have hpre : d <+: c :: cs := List.isPrefixOf_iff_prefix.mp hp
      rcases hpre with ⟨u, hu⟩
      have hdrop : (c :: cs).drop d.length = u := by rw [← hu, List.drop_left]
      rw [← h.1, ← h.2, hdrop]
      simp [← hu]
    · simp only [Bool.not_eq_true] at hp
      simp only [splitFirst, hp, Bool.false_eq_true, if_false] at h
      rcases hs : splitFirst d cs with _ | ⟨a', b'⟩
      · rw [hs] at h; simp at h
      · rw [hs] at h
        simp only [Option.some.injEq, Prod.mk.injEq] at h
        have h2 := ih a' b' hs
        rw [← h.1, ← h.2]
        simp [h2, List.append_assoc]

theorem isPrefixOf_append_of_le (d y b : Str) (h : d.length ≤ y.length) :
    (d.isPrefixOf (y ++ b) = true) ↔ (d.isPrefixOf y = true) := by
  rw [List.isPrefixOf_iff_prefix, List.isPrefixOf_iff_prefix]
  constructor
  · intro hpre
    have htake := List.prefix_iff_eq_take.mp hpre
    rw [List.take_append_eq_append_take, Nat.sub_eq_zero_of_le h,
      List.take_zero, List.append_nil] at htake
    rw [List.prefix_iff_eq_take]; exact htake
  · intro hpre; exact hpre.trans (List.prefix_append y b)

theorem splitFirst_decomp_isSome (d : Str) (hd : d ≠ []) :
    ∀ (a b : Str), (splitFirst d (a ++ d ++ b)).isSome = true := by
  intro a
  induction a with
  | nil =>
    intro b
    rcases hdc : d with _ | ⟨c, d'⟩
    · exact absurd hdc hd
    · have hpre : (c :: d').isPrefixOf (c :: (d' ++ b)) = true := by
        rw [show c :: (d' ++ b) = (c :: d') ++ b from rfl]
        exact List.isPrefixOf_iff_prefix.mpr (List.prefix_append _ _)
      simp [splitFirst, hpre]
  | cons c cs ih =>
    intro b
    simp only [List.cons_append, List.append_assoc]
    by_cases hp : d.isPrefixOf (c :: (cs ++ (d ++ b))) = true
    · simp [splitFirst, hp]
    · simp only [Bool.not_eq_true] at hp
      have hih := ih b
      simp only [List.append_assoc] at hih
      rcases hs : splitFirst d (cs ++ (d ++ b)) with _ | ⟨a', b'⟩
      · rw [hs] at hih; simp at hih
      · simp [splitFirst, hp, hs]

/-- The lazy regex group: when no occurrence of `d` starts before position
`a.length`, `splitFirst` cuts exactly at the explicit occurrence. -/
theorem splitFirst_first (d : Str) (hd : d ≠ []) :
    ∀ (a b : Str), (∀ i, i < a.length → d.isPrefixOf ((a ++ d).drop i) = false) →
      splitFirst d (a ++ d ++ b) = some (a, b) := by
  intro a
  induction a with
  | nil =>
    intro b _
    rcases hdc : d with _ | ⟨c, d'⟩
    · exact absurd hdc hd
    · have hpre : (c :: d').isPrefixOf (c :: (d' ++ b)) = true := by
        rw [show c :: (d' ++ b) = (c :: d') ++ b from rfl]
        exact List.isPrefixOf_iff_prefix.mpr (List.prefix_append _ _)
      simp only [List.nil_append]
      rw [show (c :: d') ++ b = c :: (d' ++ b) from rfl]
      simp only [splitFirst, hpre, if_pos]
      rw [show c :: (d' ++ b) = (c :: d') ++ b from rfl, List.drop_left]
  | cons c cs ih =>
    intro b hfirst
    have h0 := hfirst 0 (Nat.succ_pos _)
    simp only [List.drop_zero] at h0
    have hlen : d.length ≤ ((c :: cs) ++ d).length := by
      rw [List.length_append]; exact Nat.le_add_left _ _
    have hp : d.isPrefixOf (((c :: cs) ++ d) ++ b) = false := by
      by_cases hb : d.isPrefixOf (((c :: cs) ++ d) ++ b) = true
      · exfalso
        have h2 := (isPrefixOf_append_of_le d ((c :: cs) ++ d) b hlen).mp hb
        rw [h0] at h2
        exact Bool.false_ne_true h2
      · simp only [Bool.not_eq_true] at hb
        exact hb
    have hfirst' : ∀ i, i < cs.length → d.isPrefixOf ((cs ++ d).drop i) = false := by
      intro i hi
      have h3 := hfirst (i + 1) (by simpa using Nat.succ_lt_succ hi)
      simpa using h3
    have hih := ih b hfirst'
    rw [show (c :: cs) ++ d ++ b = c :: (cs ++ (d ++ b)) by simp]
    have hp' : d.isPrefixOf (c :: (cs ++ (d ++ b))) = false := by
      rw [show c :: (cs ++ (d ++ b)) = ((c :: cs) ++ d) ++ b by simp]
      exact hp
    simp only [List.append_assoc] at hih
    simp [splitFirst, hp', hih]

/-- When the closing delimiter occurs nowhere inside `inner`, the regex
matches with exactly `inner` as the captured block and `rest` as the body. -/
theorem parseFrontmatter_match (inner rest : Str)
    (hfirst : ∀ i, i < inner.length →
      fmDelim.isPrefixOf ((inner ++ fmDelim).drop i) = false) :
    parseFrontmatter (fmOpen ++ (inner ++ (fmDelim ++ rest))) =
      (parseFmLines inner, rest) := by
  have hpre : fmOpen.isPrefixOf (fmOpen ++ (inner ++ (fmDelim ++ rest))) = true :=
    List.isPrefixOf_iff_prefix.mpr (List.prefix_append _ _)
  have hdrop : (fmOpen ++ (inner ++ (fmDelim ++ rest))).drop fmOpen.length =
      inner ++ (fmDelim ++ rest) := List.drop_left _ _
  have hsplit := splitFirst_first fmDelim (by decide) inner rest hfirst
  simp only [List.append_assoc] at hsplit
  simp [parseFrontmatter, hpre, hdrop, hsplit]

/-- When the content does not decompose as an opening fence, a block and a
closing fence, `parseFrontmatter` degrades to no fields and the original
content as body. -/
theorem parseFrontmatter_nomatch (s : Str)
    (h : ∀ inner rest : Str, s ≠ fmOpen ++ (inner ++ (fmDelim ++ rest))) :
    parseFrontmatter s = ([], s) := by
  by_cases hpre : fmOpen.isPrefixOf s = true
  · rcases List.isPrefixOf_iff_prefix.mp hpre with ⟨t, ht⟩
    have hdrop : s.drop fmOpen.length = t := by rw [← ht, List.drop_left]
    rcases hs : splitFirst fmDelim t with _ | ⟨a, b⟩
    · simp [parseFrontmatter, hpre, hdrop, hs]
    · exfalso
      have hdecomp := splitFirst_some_sound fmDelim t a b hs
      refine h a b ?_
      rw [← ht, hdecomp]
      simp [List.append_assoc]
  · simp only [Bool.not_eq_true] at hpre
    simp [parseFrontmatter, hpre]

theorem headNotHyphen_append {x y : Str} (hx : headNotHyphen x) (hy : headNotHyphen y) :
    headNotHyphen (x ++ y) := by
  cases x with
  | nil => simpa using hy
  | cons c cs =>
    intro e he
    have hce : e = c := by simpa using he.symm
    rw [hce]
    exact hx c rfl

theorem splitLines_single {l : Str} (h : '\n' ∉ l) : splitLines l = [l] := by
  induction l with
  | nil => rfl
  | cons c cs ih =>
    have hc : (c = '\n') = False := by
      simp only [eq_iff_iff, iff_false]
      intro he; exact h (he ▸ List.mem_cons_self c cs)
    have hcs : '\n' ∉ cs := fun hm => h (List.mem_cons_of_mem c hm)
    simp [splitLines, hc, ih hcs]

theorem splitLines_append_newline {a : Str} (h : '\n' ∉ a) (rest : Str) :
    splitLines (a ++ '\n' :: rest) = a :: splitLines rest := by
  induction a with
  | nil => simp [splitLines]
  | cons c cs ih =>
    have hc : (c = '\n') = False := by
      simp only [eq_iff_iff, iff_false]
      intro he; exact h (he ▸ List.mem_cons_self c cs)
    have hcs : '\n' ∉ cs := fun hm => h (List.mem_cons_of_mem c hm)
    simp [splitLines, hc, ih hcs]

theorem splitLines_joinLines :
    ∀ lines : List Str, lines ≠ [] → (∀ l ∈ lines, '\n' ∉ l) →
      splitLines (joinLines lines) = lines
  | [], h, _ => absurd rfl h
  | [l], _, h1 => by
    simp only [joinLines]
    exact splitLines_single (h1 l (List.mem_cons_self l []))
  | l :: l' :: ls, _, h1 => by
    simp only [joinLines]
    rw [splitLines_append_newline (h1 l (List.mem_cons_self l _))]
    rw [splitLines_joinLines (l' :: ls) (by simp)
      (fun x hx => h1 x (List.mem_cons_of_mem l hx))]

/-- Scanning for the closing delimiter (which starts with a newline) past
a newline-free segment just carries the segment along. -/
theorem splitFirst_fmDelim_skip (l : Str) (hnl : '\n' ∉ l) :
    ∀ t : Str, splitFirst fmDelim (l ++ t) =
      (splitFirst fmDelim t).map (fun q => (l ++ q.1, q.2)) := by
  induction l with
  | nil =>
    intro t
    rcases hs : splitFirst fmDelim t with _ | ⟨a, b⟩ <;> simp [hs]
  | cons c cs ih =>
    intro t
    have hc : c ≠ '\n' := fun he => hnl (he ▸ List.mem_cons_self c cs)
    have hcs : '\n' ∉ cs := fun hm => hnl (List.mem_cons_of_mem c hm)
    have hp : fmDelim.isPrefixOf (c :: (cs ++ t)) = false := by
      show (('\n' == c) && _) = false
      have hbe : ('\n' == c) = false := by
        simp only [beq_eq_false_iff_ne]
        exact fun he => hc he.symm
      rw [hbe, Bool.false_and]
    rw [List.cons_append]
    simp only [splitFirst, hp, Bool.false_eq_true, if_false]
    rw [ih hcs t]
    rcases hs : splitFirst fmDelim t with _ | ⟨a, b⟩ <;> simp [hs]

theorem splitFirst_fmDelim_self (rest : Str) :
    splitFirst fmDelim (fmDelim ++ rest) = some ([], rest) := by
  have h := splitFirst_first fmDelim (by decide) [] rest (by intro i hi; simp at hi)
  simpa using h

theorem isPrefixOf_dashes_false {x : Str} (hx : headNotHyphen x) :
    "---\n".data.isPrefixOf x = false := by
  cases x with
  | nil => rfl
  | cons c cs =>
    have hc : c ≠ '-' := hx c rfl
    show (('-' == c) && _) = false
    have hbe : ('-' == c) = false := by
      simp only [beq_eq_false_iff_ne]
      exact fun he => hc he.symm
    rw [hbe, Bool.false_and]

theorem joinLines_headNotHyphen :
    ∀ lines : List Str, (∀ l ∈ lines, headNotHyphen l) →
      headNotHyphen (joinLines lines)
  | [], _ => by intro c hc; simp [joinLines] at hc
  | [l], h2 => by
    simpa [joinLines] using h2 l (List.mem_cons_self l [])
  | l :: l' :: ls, h2 => by
    simp only [joinLines]
    refine headNotHyphen_append (h2 l (List.mem_cons_self l _)) ?_
    intro c hc
    simp only [List.head?] at hc
    intro he
    rw [he] at hc
    exact absurd (Option.some.injEq .. ▸ hc) (by decide)

/-- The cut of a synthesized block: newline-free lines, none opening with
a hyphen, then the closing delimiter, then arbitrary content. -/
theorem splitFirst_joinLines :
    ∀ lines : List Str, (∀ l ∈ lines, '\n' ∉ l) →
      (∀ l ∈ lines, headNotHyphen l) →
      ∀ rest : Str,
        splitFirst fmDelim (joinLines lines ++ (fmDelim ++ rest)) =
          some (joinLines lines, rest)
  | [], _, _, rest => by
    simp only [joinLines, List.nil_append]
    exact splitFirst_fmDelim_self rest
  | [l], h1, _, rest => by
    simp only [joinLines]
    rw [splitFirst_fmDelim_skip l (h1 l (List.mem_cons_self l [])),
      splitFirst_fmDelim_self rest]
    simp
  | l :: l' :: ls, h1, h2, rest => by
    have hl : '\n' ∉ l := h1 l (List.mem_cons_self l _)
    have hXhead : headNotHyphen (joinLines (l' :: ls) ++ (fmDelim ++ rest)) := by
      refine headNotHyphen_append ?_ ?_
      · exact joinLines_headNotHyphen (l' :: ls)
          (fun x hx => h2 x (List.mem_cons_of_mem l hx))
      · intro c hc he
        rw [he] at hc
        exact absurd (Option.some.injEq .. ▸ hc) (by decide)
    have hsep : fmDelim.isPrefixOf
        ('\n' :: (joinLines (l' :: ls) ++ (fmDelim ++ rest))) = false := by
      show (('\n' == '\n') && "---\n".data.isPrefixOf _) = false
      rw [isPrefixOf_dashes_false hXhead, Bool.and_false]
    have hih := splitFirst_joinLines (l' :: ls)
      (fun x hx => h1 x (List.mem_cons_of_mem l hx))
      (fun x hx => h2 x (List.mem_cons_of_mem l hx)) rest
    simp only [joinLines]
    rw [show (l ++ '\n' :: joinLines (l' :: ls)) ++ (fmDelim ++ rest) =
        l ++ ('\n' :: (joinLines (l' :: ls) ++ (fmDelim ++ rest))) by simp]
    rw [splitFirst_fmDelim_skip l hl]
    simp only [splitFirst, hsep, Bool.false_eq_true, if_false]
    rw [hih]
    simp

theorem jsIndexOf_append {c : Char} (k : Str) (hk : c ∉ k) (v : Str) :
    jsIndexOf c (k ++ c :: v) = some k.length := by
  induction k with
  | nil => simp [jsIndexOf]
  | cons d k' ih =>
    have hd : (d = c) = False := by
      simp only [eq_iff_iff, iff_false]
      intro he; exact hk (he ▸ List.mem_cons_self d k')
    have hk' : c ∉ k' := fun hm => hk (List.mem_cons_of_mem d hm)
    simp [jsIndexOf, hd, ih hk']

theorem parseFmLine_keyVal (k v : Str) (hk : ':' ∉ k) (hne : k ≠ []) :
    parseFmLine (k ++ ':' :: v) = some (jsTrim k, stripQuotes (jsTrim v)) := by
  have hidx := jsIndexOf_append k hk v
  have hpos : 0 < k.length := List.length_pos.mpr hne
  have htake : (k ++ ':' :: v).take k.length = k := List.take_left k _
  have hdrop : (k ++ ':' :: v).drop (k.length + 1) = v := by
    rw [← List.drop_drop, List.drop_left]
    simp
  simp [parseFmLine, hidx, hpos, htake, hdrop]

theorem mkDefaultFrontmatter_decomp (title slug pd iso : Str) :
    mkDefaultFrontmatter title slug pd iso =
      fmOpen ++ (joinLines (fmSixLines title slug pd iso) ++ fmDelim) := by
  simp only [mkDefaultFrontmatter, fmSixLines, joinLines, fmOpen, fmDelim,
    List.append_assoc, List.cons_append, List.nil_append]

/-- Parsing the result of `addDefaultFrontmatter` in the synthesized case:
the block yields exactly the six fields `title`, `slug`, `publishDate`,
`createdAt`, `updatedAt` and `draft: true`, and the body comes back
unchanged. -/
theorem parse_mkDefaultFrontmatter (title slug pd iso body : Str)
    (ht : '\n' ∉ title) (hs : '\n' ∉ slug) (hp : '\n' ∉ pd) (hi : '\n' ∉ iso) :
    parseFrontmatter (mkDefaultFrontmatter title slug pd iso ++ body) =
      ([("title".data, stripQuotes (jsTrim title)),
        ("slug".data, stripQuotes (jsTrim slug)),
        ("publishDate".data, stripQuotes (jsTrim pd)),
        ("createdAt".data, stripQuotes (jsTrim iso)),
        ("updatedAt".data, stripQuotes (jsTrim iso)),
        ("draft".data, "true".data)], body) := by
  have hnl : ∀ l ∈ fmSixLines title slug pd iso, '\n' ∉ l := by
    intro l hl
    simp only [fmSixLines, List.mem_cons, List.mem_singleton] at hl
    rcases hl with h | h | h | h | h | h | h
    all_goals first
      | (subst h; intro hm
         rcases List.mem_append.mp hm with h2 | h2
         · revert h2; decide
         · first | exact ht h2 | exact hs h2 | exact hp h2 | exact hi h2)
      | (subst h; decide)
      | simp at h
  have hhd : ∀ l ∈ fmSixLines title slug pd iso, headNotHyphen l := by
    intro l hl
    simp only [fmSixLines, List.mem_cons, List.mem_singleton] at hl
    rcases hl with h | h | h | h | h | h | h
    all_goals first
      | (subst h; intro c hc; simp only [List.cons_append, List.head?] at hc;
         intro he; rw [he] at hc; exact absurd hc (by decide))
      | (subst h; intro c hc; intro he; rw [he] at hc; exact absurd hc (by decide))
      | simp at h
  have hpre : fmOpen.isPrefixOf
      (fmOpen ++ (joinLines (fmSixLines title slug pd iso) ++ (fmDelim ++ body))) = true :=
    List.isPrefixOf_iff_prefix.mpr (List.prefix_append _ _)
  have hdrop : (fmOpen ++ (joinLines (fmSixLines title slug pd iso) ++ (fmDelim ++ body))).drop
      fmOpen.length = joinLines (fmSixLines title slug pd iso) ++ (fmDelim ++ body) :=
    List.drop_left _ _
  have hsplit := splitFirst_joinLines (fmSixLines title slug pd iso) hnl hhd body
  rw [mkDefaultFrontmatter_decomp]
  rw [show (fmOpen ++ (joinLines (fmSixLines title slug pd iso) ++ fmDelim)) ++ body =
      fmOpen ++ (joinLines (fmSixLines title slug pd iso) ++ (fmDelim ++ body)) by
    simp [List.append_assoc]]
  simp only [parseFrontmatter, hpre, if_true, hdrop, hsplit]
  unfold parseFmLines
  rw [splitLines_joinLines _ (by simp [fmSixLines]) hnl]
  rfl

theorem lookupEntry_append_right {s : DirList} {name : Str}
    (h : lookupEntry s name = none) (e : Entry) :
    lookupEntry (s ++ [(name, e)]) name = some e := by
  induction s with
  | nil => simp [lookupEntry]
  | cons q t ih =>
    rcases q with ⟨n, e₀⟩
    by_cases hn : n = name
    · exfalso
      simp [lookupEntry, List.find?_cons, hn] at h
    · simp only [lookupEntry, List.cons_append, List.find?_cons] at h ⊢
      have hd : (decide (n = name)) = false := by simpa using hn
      rw [hd] at h ⊢
      exact ih h

theorem lookupEntry_append_left {s : DirList} {name : Str} {e : Entry}
    (h : lookupEntry s name = some e) (t : DirList) :
    lookupEntry (s ++ t) name = some e := by
  induction s with
  | nil => simp [lookupEntry] at h
  | cons q r ih =>
    rcases q with ⟨n, e₀⟩
    simp only [lookupEntry, List.cons_append, List.find?_cons] at h ⊢
    by_cases hn : n = name
    · have hd : (decide (n = name)) = true := by simpa using hn
      rw [hd] at h ⊢
      exact h
    · have hd : (decide (n = name)) = false := by simpa using hn
      rw [hd] at h ⊢
      exact ih h

theorem lookupEntry_map_replace {s : DirList} {name : Str}
    (h : (lookupEntry s name).isSome = true) (enew : Entry) :
    lookupEntry (s.map (fun q => if q.1 = name then (q.1, enew) else q)) name =
      some enew := by
  induction s with
  | nil => simp [lookupEntry] at h
  | cons q t ih =>
    rcases q with ⟨n, e₀⟩
    by_cases hn : n = name
    · subst hn
      simp [lookupEntry, List.find?_cons]
    · have hd : ((n, e₀).1 = name) = False := by simpa using hn
      simp only [List.map_cons, hd, if_false]
      simp only [lookupEntry, List.find?_cons] at h ⊢
      have hd2 : (decide (n = name)) = false := by simpa using hn
      rw [hd2] at h ⊢
      exact ih h

theorem lookupEntry_cons (n : Str) (e : Entry) (t : DirList) (name : Str) :
    lookupEntry ((n, e) :: t) name = if n = name then some e else lookupEntry t name := by
  by_cases h : n = name
  · simp [lookupEntry, List.find?_cons, h]
  · simp [lookupEntry, List.find?_cons, h]

theorem lookupEntry_map_replace_other {s : DirList} {name other : Str}
    (hne : other ≠ name) (enew : Entry) :
    lookupEntry (s.map (fun q => if q.1 = name then (q.1, enew) else q)) other =
      lookupEntry s other := by
  induction s with
  | nil => simp [lookupEntry]
  | cons q t ih =>
    rcases q with ⟨n, e₀⟩
    simp only [List.map_cons]
    by_cases hn : n = name
    · subst hn
      rw [if_pos rfl]
      rw [lookupEntry_cons, lookupEntry_cons]
      have ho : ¬ n = other := fun he => hne he.symm
      rw [if_neg ho, if_neg ho]
      exact ih
    · rw [if_neg hn]
      rw [lookupEntry_cons, lookupEntry_cons]
      by_cases ho : n = other
      · rw [if_pos ho, if_pos ho]
      · rw [if_neg ho, if_neg ho]; exact ih

theorem lookupEntry_filter_self (s : DirList) (name : Str) :
    lookupEntry (s.filter (fun q => !(q.1 = name))) name = none := by
  induction s with
  | nil => rfl
  | cons q t ih =>
    rcases q with ⟨n, e₀⟩
    rw [List.filter_cons]
    by_cases hn : n = name
    · subst hn
      rw [if_neg (by simp)]
      exact ih
    · rw [if_pos (by simpa using hn), lookupEntry_cons, if_neg hn]
      exact ih

theorem lookupEntry_filter_other {s : DirList} {name other : Str}
    (hne : other ≠ name) :
    lookupEntry (s.filter (fun q => !(q.1 = name))) other = lookupEntry s other := by
  induction s with
  | nil => rfl
  | cons q t ih =>
    rcases q with ⟨n, e₀⟩
    rw [List.filter_cons]
    by_cases hn : n = name
    · subst hn
      rw [if_neg (by simp), lookupEntry_cons,
        if_neg (fun he => hne he.symm)]
      exact ih
    · rw [if_pos (by simpa using hn), lookupEntry_cons, lookupEntry_cons]
      by_cases ho : n = other
      · rw [if_pos ho, if_pos ho]
      · rw [if_neg ho, if_neg ho]; exact ih

theorem slugExists_append_left {s : DirList} {x : Str}
    (h : slugExists s x = true) (t : DirList) : slugExists (s ++ t) x = true := by
  unfold slugExists at h ⊢
  rcases hl : lookupEntry s x with _ | e
  · rw [hl] at h; simp at h
  · rw [lookupEntry_append_left hl t]
    rw [hl] at h
    exact h

/-- C3: `deriveSlug` (the source's `generateSlug`) equals the
specification's pipeline applied in order — lower-casing, removing
characters outside word-characters/hyphen/space, replacing whitespace
runs by single hyphens, collapsing repeated hyphens, trimming
leading/trailing hyphens, truncating to 60 characters — and a degenerate
title may yield the empty slug.  (The code's extra `.trim()` step is
redundant, so the two pipelines agree everywhere.) -/
theorem C3_deriveSlug_spec :
    (∀ title : Str, generateSlug title = specSlugPipeline title) ∧
    generateSlug "!!!".data = [] :=
  ⟨generateSlug_eq_specPipeline, by decide⟩

/-- C6: `parseFrontmatter` is a total function (never raises).  On content
of the shape `---\n<inner>\n---\n<rest>` — with the block closed at the
first delimiter, as the lazy regex group does — the fields are the inner
lines split at their first colon into trimmed key and trimmed,
quote-stripped value (`parseFmLines`), and the body is `rest`.  On any
other content it returns no fields and the original content as body. -/
theorem C6_parseFrontmatter_spec :
    (∀ inner rest : Str,
      (∀ i, i < inner.length →
        fmDelim.isPrefixOf ((inner ++ fmDelim).drop i) = false) →
      parseFrontmatter (fmOpen ++ (inner ++ (fmDelim ++ rest))) =
        (parseFmLines inner, rest)) ∧
    (∀ s : Str, (∀ inner rest : Str, s ≠ fmOpen ++ (inner ++ (fmDelim ++ rest))) →
      parseFrontmatter s = ([], s)) :=
  ⟨parseFrontmatter_match, parseFrontmatter_nomatch⟩

/-- Witness for C6 at concrete inputs: a well-formed block and a block-free
content. -/
theorem C6_parseFrontmatter_spec_witness :
    parseFrontmatter "---\na: 1\n---\nbody".data =
      (parseFmLines "a: 1".data, "body".data) ∧
    parseFrontmatter "hello".data = ([], "hello".data) := by
  constructor
  · have h := C6_parseFrontmatter_spec.1 "a: 1".data "body".data (by decide)
    rw [show ("---\na: 1\n---\nbody".data : Str) =
        fmOpen ++ ("a: 1".data ++ (fmDelim ++ "body".data)) by decide]
    exact h
  · refine C6_parseFrontmatter_spec.2 "hello".data ?_
    intro inner rest he
    have hlen := congrArg List.length he
    simp only [List.length_append] at hlen
    rw [show ("hello".data : Str).length = 5 from by decide,
      show (fmOpen : Str).length = 4 from by decide,
      show (fmDelim : Str).length = 5 from by decide] at hlen
    omega

theorem toPublishDate_no_newline {isoNow : Str} (hi : '\n' ∉ isoNow) :
    '\n' ∉ toPublishDate isoNow := by
  unfold toPublishDate
  by_cases h : hasMsZSuffix isoNow = true
  · rw [if_pos h]
    intro hm
    rcases List.mem_append.mp hm with h2 | h2
    · exact hi (List.take_subset _ _ h2)
    · revert h2; decide
  · rw [if_neg h]; exact hi

/-- C4: `ensureFrontmatter` (the source's `addDefaultFrontmatter`).
Content that already parses to at least one frontmatter field is returned
unchanged (so a supplied `draft: false` survives).  Otherwise the parsed
body is prefixed with the synthesized block; `publishDate` is the ISO
timestamp with its `.mmmZ` suffix replaced by the fixed `-07:00` offset
suffix; and (for newline-free title, slug and timestamp) the result
parses back to exactly the fields `title`, `slug`, `publishDate`,
`createdAt`, `updatedAt` and `draft: true` over that body. -/
theorem C4_ensureFrontmatter_spec (content title slug isoNow : Str) :
    ((parseFrontmatter content).1 ≠ [] →
      addDefaultFrontmatter content title slug isoNow = content) ∧
    ((parseFrontmatter content).1 = [] →
      addDefaultFrontmatter content title slug isoNow =
        mkDefaultFrontmatter title slug (toPublishDate isoNow) isoNow ++
          (parseFrontmatter content).2) ∧
    (hasMsZSuffix isoNow = true →
      toPublishDate isoNow = isoNow.take (isoNow.length - 5) ++ "-07:00".data) ∧
    ((parseFrontmatter content).1 = [] → '\n' ∉ title → '\n' ∉ slug → '\n' ∉ isoNow →
      parseFrontmatter (addDefaultFrontmatter content title slug isoNow) =
        ([("title".data, stripQuotes (jsTrim title)),
          ("slug".data, stripQuotes (jsTrim slug)),
          ("publishDate".data, stripQuotes (jsTrim (toPublishDate isoNow))),
          ("createdAt".data, stripQuotes (jsTrim isoNow)),
          ("updatedAt".data, stripQuotes (jsTrim isoNow)),
          ("draft".data, "true".data)], (parseFrontmatter content).2)) := by
  refine ⟨?_, ?_, ?_, ?_⟩
  · intro h
    have hl : 0 < (parseFrontmatter content).1.length := List.length_pos.mpr h
    simp only [addDefaultFrontmatter]
    rw [if_pos hl]
  · intro h
    simp only [addDefaultFrontmatter]
    rw [if_neg (by simp [h])]
  · intro h
    simp only [toPublishDate]
    rw [if_pos h]
  · intro h ht hs hi
    have heq : addDefaultFrontmatter content title slug isoNow =
        mkDefaultFrontmatter title slug (toPublishDate isoNow) isoNow ++
          (parseFrontmatter content).2 := by
      simp only [addDefaultFrontmatter]
      rw [if_neg (by simp [h])]
    rw [heq]
    exact parse_mkDefaultFrontmatter title slug (toPublishDate isoNow) isoNow
      (parseFrontmatter content).2 ht hs (toPublishDate_no_newline hi) hi

/-- Witness for C4 at concrete inputs: frontmatter-free content gets the
synthesized block; content with a `draft: false` field is unchanged. -/
theorem C4_ensureFrontmatter_spec_witness :
    addDefaultFrontmatter "Hello".data "T".data "t".data
        "2021-06-08T21:47:59.123Z".data =
      mkDefaultFrontmatter "T".data "t".data
        "2021-06-08T21:47:59-07:00".data "2021-06-08T21:47:59.123Z".data ++
        "Hello".data ∧
    addDefaultFrontmatter "---\ndraft: false\n---\nBody".data "T".data "t".data
        "2021-06-08T21:47:59.123Z".data = "---\ndraft: false\n---\nBody".data ∧
    parseFrontmatter (addDefaultFrontmatter "Hello".data "T".data "t".data
        "2021-06-08T21:47:59.123Z".data) =
      ([("title".data, "T".data), ("slug".data, "t".data),
        ("publishDate".data, "2021-06-08T21:47:59-07:00".data),
        ("createdAt".data, "2021-06-08T21:47:59.123Z".data),
        ("updatedAt".data, "2021-06-08T21:47:59.123Z".data),
        ("draft".data, "true".data)], "Hello".data) := by
  refine ⟨?_, ?_, ?_⟩
  · have h := (C4_ensureFrontmatter_spec "Hello".data "T".data "t".data
      "2021-06-08T21:47:59.123Z".data).2.1 (by decide)
    rw [h]
    rfl
  · exact (C4_ensureFrontmatter_spec "---\ndraft: false\n---\nBody".data "T".data
      "t".data "2021-06-08T21:47:59.123Z".data).1 (by decide)
  · have h := (C4_ensureFrontmatter_spec "Hello".data "T".data "t".data
      "2021-06-08T21:47:59.123Z".data).2.2.2 (by decide) (by decide) (by decide) (by decide)
    rw [h]
    rfl

/-- C9 counterexample: the claim's list of accepted content types omits
`image/jpg`, which the handler also accepts with a 201 (the claim, as
stated, requires a 400 for it). -/
theorem C9_counterexample :
    "image/jpg".data ∉ specListedTypes ∧
    (handleUpload (some ⟨"image/jpg".data, "photo.jpg".data⟩)
        "images/test-post/img.jpg".data).status = 201 := by
  decide

/-- C9 (amended): the upload route accepts a multipart file exactly when
its declared content type is one of `image/png, image/jpeg, image/jpg,
image/gif, image/webp`; every other type (and a missing file) gets a 400;
every accepted upload gets a 201 whose body carries the stored relative
path and a markdown snippet referencing that path. -/
theorem C9_upload_types (f : UploadedFile) (storedPath : Str) :
    (f.type ∈ allowedTypes →
      handleUpload (some f) storedPath =
        .created storedPath ("![](/".data ++ storedPath ++ [')']) ∧
      (handleUpload (some f) storedPath).status = 201) ∧
    (f.type ∉ allowedTypes →
      handleUpload (some f) storedPath = .err 400 "Invalid image type".data) ∧
    (handleUpload none storedPath).status = 400 := by
  refine ⟨?_, ?_, rfl⟩
  · intro h
    constructor
    · simp [handleUpload, h]
    · simp [handleUpload, h, UploadResponse.status]
  · intro h
    simp [handleUpload, h]

/-- Witness for C9 at concrete inputs: a PNG upload is created with 201;
an HTML upload is rejected with the 400 error body. -/
theorem C9_upload_types_witness :
    (handleUpload (some ⟨"image/png".data, "a.png".data⟩)
      "images/p/x.png".data).status = 201 ∧
    handleUpload (some ⟨"text/html".data, "a.html".data⟩) "images/p/x.png".data =
      .err 400 "Invalid image type".data := by
  constructor
  · exact ((C9_upload_types ⟨"image/png".data, "a.png".data⟩
      "images/p/x.png".data).1 (by decide)).2
  · exact (C9_upload_types ⟨"text/html".data, "a.html".data⟩
      "images/p/x.png".data).2.1 (by decide)

/-- C1 (failing input, folder variant): `create` stores the supplied
content verbatim — it never calls `addDefaultFrontmatter` — so the
round-trip through `get` returns content with no frontmatter block at
all, contradicting the claim (and the repository's own tests
`PostManager - creates and retrieves a post` and `PostManager - creates
post with default frontmatter`). -/
theorem C1_roundtrip_lacks_frontmatter :
    ((PostManager.create [] c1Title c1Content 0).bind
        (fun r => PostManager.get r.1 r.2.id)).map Post.content =
      some (some c1Content) ∧
    (parseFrontmatter c1Content).1 = [] ∧
    fmOpen.isPrefixOf c1Content = false := by
  decide

/-- Inversion of a successful `create`: the new state appends the post
folder under the disambiguated slug, and the returned Post carries it. -/
theorem create_inv {s : DirList} {title content : Str} {now : Int}
    {s' : DirList} {p : Post}
    (h : PostManager.create s title content now = some (s', p)) :
    p = ⟨findUniqueSlug s (createBase title content),
         findUniqueSlug s (createBase title content), title, some content, now, now⟩ ∧
    s' = s ++ [(p.id, .dir ⟨some ⟨p.id, p.id, title, now, now⟩, content, []⟩)] ∧
    lookupEntry s p.id = none := by
  have hfresh := findUniqueSlug_fresh s (createBase title content)
  simp only [PostManager.create] at h
  rcases hlu : lookupEntry s (findUniqueSlug s (createBase title content)) with _ | e
  · rw [hlu] at h
    simp only [Option.some.injEq, Prod.mk.injEq] at h
    obtain ⟨hs', hp⟩ := h
    subst hp
    refine ⟨rfl, ?_, hlu⟩
    exact hs'.symm
  · cases e with
    | file =>
      rw [hlu] at h
      simp at h
    | dir d =>
      exfalso
      have hex : slugExists s (findUniqueSlug s (createBase title content)) = true := by
        simp [slugExists, hlu]
      rw [hex] at hfresh
      exact absurd hfresh (by decide)

/-- C10: a successful `create` returns a Post and persists metadata with
`createdAt = updatedAt` (both the creation instant), and the metadata's
`id` and `slug` both equal the disambiguated slug, which is also the
post's folder name. -/
theorem C10_create_invariants (s : DirList) (title content : Str) (now : Int)
    (s' : DirList) (p : Post)
    (h : PostManager.create s title content now = some (s', p)) :
    p.createdAt = now ∧ p.updatedAt = now ∧ p.id = p.folder ∧ p.title = title ∧
    lookupEntry s' p.id =
      some (.dir ⟨some ⟨p.id, p.id, title, now, now⟩, content, []⟩) := by
  obtain ⟨hp, hs', hnone⟩ := create_inv h
  refine ⟨by rw [hp], by rw [hp], by rw [hp], by rw [hp], ?_⟩
  rw [hs']
  exact lookupEntry_append_right hnone _

/-- Witness for C10 at a concrete create on the empty store. -/
theorem C10_create_invariants_witness :
    ∃ s' p, PostManager.create [] c1Title c1Content 0 = some (s', p) ∧
      p.createdAt = p.updatedAt ∧ p.id = p.folder := by
  rcases hc : PostManager.create [] c1Title c1Content 0 with _ | ⟨s', p⟩
  · exact absurd hc (by decide)
  · have h := C10_create_invariants [] c1Title c1Content 0 s' p hc
    exact ⟨s', p, rfl, by rw [h.1, h.2.1], h.2.2.1⟩

/-- C2 counterexample: with a present-but-empty frontmatter `slug` field,
the claim's candidate slug would be the empty string (present field), and
its disambiguation over the empty store would be the empty id; the code's
JavaScript `||` treats the empty value as absent and assigns the
title-derived `hello` instead. -/
theorem C2_counterexample :
    fmLookup (parseFrontmatter c2Content).1 "slug".data = some [] ∧
    findUniqueSlug [] [] = ([] : Str) ∧
    (PostManager.create [] "Hello".data c2Content 0).map (fun r => r.2.id) =
      some "hello".data ∧
    "hello".data ≠ ([] : Str) := by
  decide

/-- C2 (amended): the assigned id is the candidate slug — the content's
frontmatter `slug` field if present and nonempty, else the slug derived
from the title (`createBase`) — with the first suffix `-1`, `-2`, … (or
none) under which it collides with no existing post folder; and a second
consecutive create with the same title and content gets a distinct,
suffixed id. -/
theorem C2_slug_assignment (s : DirList) (title content : Str) (now : Int)
    (s' : DirList) (p : Post)
    (h : PostManager.create s title content now = some (s', p)) :
    (∃ j, p.id = candidate (createBase title content) j ∧
      slugExists s (candidate (createBase title content) j) = false ∧
      ∀ i < j, slugExists s (candidate (createBase title content) i) = true) ∧
    (∀ now₂ s'' q, PostManager.create s' title content now₂ = some (s'', q) →
      q.id ≠ p.id ∧ ∃ m, 1 ≤ m ∧
        q.id = createBase title content ++ '-' :: natStr m) := by
  obtain ⟨hp, hs', _⟩ := create_inv h
  have hid : p.id = findUniqueSlug s (createBase title content) := by rw [hp]
  constructor
  · rcases findUniqueSlug_spec s (createBase title content) with ⟨j, heq, hfresh, hmin⟩
    exact ⟨j, by rw [hid, heq], hfresh, hmin⟩
  · intro now₂ s'' q h₂
    obtain ⟨hq, _, _⟩ := create_inv h₂
    have hqid : q.id = findUniqueSlug s' (createBase title content) := by rw [hq]
    have hmem : slugExists s' p.id = true := by
      unfold slugExists
      rw [hs', lookupEntry_append_right (create_inv h).2.2 _]
    rcases findUniqueSlug_spec s' (createBase title content) with ⟨j₂, heq₂, hfresh₂, hmin₂⟩
    have hne : q.id ≠ p.id := by
      intro he
      rw [← he, hqid, heq₂, hfresh₂] at hmem
      exact absurd hmem (by decide)
    refine ⟨hne, ?_⟩
    have hj₂pos : 1 ≤ j₂ := by
      by_contra hlt
      have hj0 : j₂ = 0 := by omega
      subst hj0
      -- q.id = candidate 0 = base, fresh in s'; but the base collides in s'
      rcases findUniqueSlug_spec s (createBase title content) with ⟨j₁, heq₁, hfresh₁, hmin₁⟩
      rcases Nat.eq_zero_or_pos j₁ with hj₁ | hj₁
      · -- p.id is the bare base, and it exists in s'
        have : p.id = candidate (createBase title content) 0 := by
          rw [hid, heq₁, hj₁]
        rw [this] at hmem
        rw [hmem] at hfresh₂
        exact absurd hfresh₂ (by decide)
      · -- candidate 0 collides already in s, hence in s'
        have hc0 := hmin₁ 0 hj₁
        have hc0' := slugExists_append_left hc0
          [(p.id, .dir ⟨some ⟨p.id, p.id, title, now, now⟩, content, []⟩)]
        rw [← hs'] at hc0'
        rw [hc0'] at hfresh₂
        exact absurd hfresh₂ (by decide)
    refine ⟨j₂, hj₂pos, ?_⟩
    rcases j₂ with _ | m
    · omega
    · rw [hqid, heq₂]
      rfl

/-- Witness for C2 at two concrete consecutive creates on the empty
store: `test-post` then `test-post-1`. -/
theorem C2_slug_assignment_witness :
    PostManager.create [] c1Title c1Content 0 = some (c2S1, c2P1) ∧
    PostManager.create c2S1 c1Title c1Content 1 = some (c2S2, c2P2) ∧
    c2P2.id ≠ c2P1.id ∧
    ∃ m, 1 ≤ m ∧ c2P2.id = createBase c1Title c1Content ++ '-' :: natStr m := by
  have hc : PostManager.create [] c1Title c1Content 0 = some (c2S1, c2P1) := by decide
  have hc2 : PostManager.create c2S1 c1Title c1Content 1 = some (c2S2, c2P2) := by decide
  have h := (C2_slug_assignment [] c1Title c1Content 0 c2S1 c2P1 hc).2 1 c2S2 c2P2 hc2
  exact ⟨hc, hc2, h.1, h.2⟩

/-- C5: `update` semantics (folder variant).  A title-only update rewrites
exactly the metadata's `title` and `updatedAt` fields, leaving the `id`
and `slug` fields, `createdAt`, the content file, the images folder and
every other directory entry unchanged; every successful update stores and
returns `updatedAt = now`; an id that does not resolve yields `null`
(the code returns before performing any write). -/
theorem C5_update_semantics (s : DirList) (id : Str) (now : Int) :
    (∀ t s' p, PostManager.update s id (some t) none now = some (s', p) →
      ∃ d m, lookupEntry s id = some (.dir d) ∧ d.meta = some m ∧
        lookupEntry s' id = some (.dir ⟨some ⟨m.id, m.slug, t, m.createdAt, now⟩,
          d.content, d.images⟩) ∧
        (∀ name, name ≠ id → lookupEntry s' name = lookupEntry s name) ∧
        p.createdAt = m.createdAt ∧ p.id = m.id ∧ p.content = some d.content ∧
        p.updatedAt = now) ∧
    (∀ t? c? s' p, PostManager.update s id t? c? now = some (s', p) →
      p.updatedAt = now ∧
      ∃ d', lookupEntry s' id = some (.dir d') ∧
        ∃ m', d'.meta = some m' ∧ m'.updatedAt = now) ∧
    (PostManager.get s id = none →
      ∀ t? c?, PostManager.update s id t? c? now = none) := by
  refine ⟨?_, ?_, ?_⟩
  · intro t s' p h
    rcases hlu : lookupEntry s id with _ | e
    · simp [PostManager.update, hlu] at h
    cases e with
    | file => simp [PostManager.update, hlu] at h
    | dir d =>
      rcases hm : d.meta with _ | m
      · simp [PostManager.update, hlu, hm] at h
      · simp only [PostManager.update, hlu, hm, Option.getD_some, Option.getD_none,
          Option.some.injEq, Prod.mk.injEq] at h
        obtain ⟨hs', hp⟩ := h
        subst hs'
        subst hp
        refine ⟨d, m, rfl, hm, ?_, ?_, rfl, rfl, rfl, rfl⟩
        · exact lookupEntry_map_replace (by rw [hlu]; rfl) _
        · intro name hne
          exact lookupEntry_map_replace_other hne _
  · intro t? c? s' p h
    rcases hlu : lookupEntry s id with _ | e
    · simp [PostManager.update, hlu] at h
    cases e with
    | file => simp [PostManager.update, hlu] at h
    | dir d =>
      rcases hm : d.meta with _ | m
      · simp [PostManager.update, hlu, hm] at h
      · simp only [PostManager.update, hlu, hm,
          Option.some.injEq, Prod.mk.injEq] at h
        obtain ⟨hs', hp⟩ := h
        subst hs'
        subst hp
        exact ⟨rfl, _, lookupEntry_map_replace (by rw [hlu]; rfl) _, _, rfl, rfl⟩
  · intro hget t? c?
    rcases hlu : lookupEntry s id with _ | e
    · simp [PostManager.update, hlu]
    cases e with
    | file => simp [PostManager.update, hlu]
    | dir d =>
      rcases hm : d.meta with _ | m
      · simp [PostManager.update, hlu, hm]
      · exfalso
        simp [PostManager.get, hlu, hm] at hget

/-- Witness for C5: a concrete title-only update on the store created by
the C2 witness refreshes `updatedAt`. -/
theorem C5_update_semantics_witness :
    ∃ s' p, PostManager.update c2S1 "test-post".data (some "New".data) none 7 =
      some (s', p) ∧ p.updatedAt = 7 := by
  rcases hu : PostManager.update c2S1 "test-post".data (some "New".data) none 7 with
    _ | ⟨s', p⟩
  · exact absurd hu (by decide)
  · exact ⟨s', p, rfl,
      ((C5_update_semantics c2S1 "test-post".data 7).2.1 (some "New".data) none
        s' p hu).1⟩

/-- C7: `list` returns summaries of exactly the immediate subfolders whose
`meta.json` parses — a permutation of the collected summaries, whose
members are characterized below — sorted by `createdAt` descending
(newest first, and stably so by `insertionSort`); files and folders with
missing or unparseable metadata are skipped silently; an unreadable posts
root yields the empty sequence. -/
theorem C7_list_spec (s : DirList) :
    (PostManager.list s).Perm (collectSummaries s) ∧
    List.Sorted newerFirst (PostManager.list s) ∧
    (∀ p, p ∈ PostManager.list s ↔ ∃ name d m, (name, Entry.dir d) ∈ s ∧
      d.meta = some m ∧
      p = ⟨m.id, name, m.title, none, m.createdAt, m.updatedAt⟩) ∧
    PostManager.listFS none = [] := by
  refine ⟨List.perm_insertionSort _ _, List.sorted_insertionSort _ _, ?_, rfl⟩
  intro p
  unfold PostManager.list
  rw [(List.perm_insertionSort newerFirst (collectSummaries s)).mem_iff]
  unfold collectSummaries
  rw [List.mem_filterMap]
  constructor
  · rintro ⟨⟨name, e⟩, hmem, hf⟩
    cases e with
    | file => simp at hf
    | dir d =>
      rcases hmeta : d.meta with _ | m
      · simp only [summaryOf, hmeta] at hf
        exact absurd hf (by simp)
      · simp only [summaryOf, hmeta, Option.some.injEq] at hf
        exact ⟨name, d, m, hmem, hmeta, hf.symm⟩
  · rintro ⟨name, d, m, hmem, hmeta, rfl⟩
    exact ⟨(name, .dir d), hmem, by simp [summaryOf, hmeta]⟩

/-- C8: `delete` removes the entire post folder (content, metadata and
images travel with the directory entry) and returns `true` exactly when a
directory of that name existed; deleting a nonexistent id returns `false`
with the store untouched and never raises (the function is total); other
entries are untouched; and `get` after a `delete` of that id is always
absent. -/
theorem C8_delete_semantics (s : DirList) (id : Str) :
    ((PostManager.delete s id).1 = true ↔ ∃ d, lookupEntry s id = some (.dir d)) ∧
    ((PostManager.delete s id).1 = true →
      lookupEntry (PostManager.delete s id).2 id = none) ∧
    (∀ name, name ≠ id →
      lookupEntry (PostManager.delete s id).2 name = lookupEntry s name) ∧
    ((PostManager.delete s id).1 = false → (PostManager.delete s id).2 = s) ∧
    PostManager.get (PostManager.delete s id).2 id = none := by
  rcases hlu : lookupEntry s id with _ | e
  · refine ⟨?_, ?_, ?_, ?_, ?_⟩
    · simp [PostManager.delete, hlu]
    · intro h
      simp [PostManager.delete, hlu] at h
    · intro name hne
      simp [PostManager.delete, hlu]
    · intro _
      simp [PostManager.delete, hlu]
    · simp [PostManager.delete, PostManager.get, hlu]
  · cases e with
    | file =>
      refine ⟨?_, ?_, ?_, ?_, ?_⟩
      · simp [PostManager.delete, hlu]
      · intro h
        simp [PostManager.delete, hlu] at h
      · intro name hne
        simp [PostManager.delete, hlu]
      · intro _
        simp [PostManager.delete, hlu]
      · simp [PostManager.delete, PostManager.get, hlu]
    | dir d =>
      refine ⟨?_, ?_, ?_, ?_, ?_⟩
      · simp [PostManager.delete, hlu]
      · intro _
        simp only [PostManager.delete, hlu]
        exact lookupEntry_filter_self s id
      · intro name hne
        simp only [PostManager.delete, hlu]
        exact lookupEntry_filter_other hne
      · intro h
        simp [PostManager.delete, hlu] at h
      · simp only [PostManager.delete, PostManager.get, hlu]
        rw [lookupEntry_filter_self s id]

/-- Witness for C8's implications at a concrete store: deleting the post
created by the C2 witness succeeds and empties its entry; deleting a
missing id reports `false` and leaves the store unchanged. -/
theorem C8_delete_semantics_witness :
    (PostManager.delete c2S1 "test-post".data).1 = true ∧
    lookupEntry (PostManager.delete c2S1 "test-post".data).2 "test-post".data = none ∧
    (PostManager.delete c2S1 "missing".data).1 = false ∧
    (PostManager.delete c2S1 "missing".data).2 = c2S1 := by
  refine ⟨by decide, ?_, by decide, ?_⟩
  · exact (C8_delete_semantics c2S1 "test-post".data).2.1 (by decide)
  · exact (C8_delete_semantics c2S1 "missing".data).2.2.2.1 (by decide)
